import Mathlib

/-!
A shallow embedding of the cognitive-agent runtime (event bus, two-tier
memory store, rule-based reasoning engine, cognitive core state machine)
together with proofs about its behaviour.

Conventions of the embedding:
* Python floats are modelled as exact rationals (`ℚ`); every float literal
  appearing in the source (0.1, 0.5, 2.0, …) is taken at its decimal value.
* Python `dict`s are modelled as association lists with first-occurrence
  lookup; assignment replaces the first binding with the key (or appends a
  fresh binding at the end), matching insertion-ordered dict semantics.
* `datetime.now()` timestamps are modelled as integer ticks supplied by the
  caller.
* Exceptions raised inside user-supplied callables are modelled with
  `Except String`; code that catches an exception pattern-matches on
  `.error`.
* Asynchronous persistence (`persist`) performs file I/O only; the in-memory
  effect of an operation is the structure returned, and whether `persist`
  was triggered is returned as an explicit `Bool` flag.
-/

namespace MambaCore

/-- JSON-like values: the payloads, contexts and decisions the Python code
passes around as untyped data. -/
inductive Val where
  | null : Val
  | bool (b : Bool) : Val
  | str (s : String) : Val
  | num (q : ℚ) : Val
  | list (l : List Val) : Val
  | dict (kvs : List (String × Val)) : Val

/-- First-occurrence lookup in an insertion-ordered dict, i.e. `d.get(k)`. -/
def dictGet? {β : Type} (d : List (String × β)) (k : String) : Option β :=
  (d.find? (fun p => p.1 = k)).map (fun p => p.2)

/-- `d[k] = v`: replace the value of the first binding of `k`, or append a
fresh binding when the key is absent. -/
def dictSet {β : Type} : List (String × β) → String → β → List (String × β)
  | [], k, v => [(k, v)]
  | p :: ps, k, v => if p.1 = k then (k, v) :: ps else p :: dictSet ps k v

/-- `del d[k]`: drop the first binding of `k`. -/
def dictErase {β : Type} : List (String × β) → String → List (String × β)
  | [], _ => []
  | p :: ps, k => if p.1 = k then ps else p :: dictErase ps k

/-- `k in d`. -/
def dictContains {β : Type} (d : List (String × β)) (k : String) : Bool :=
  (d.find? (fun p => p.1 = k)).isSome

/-- `l[-n:]`, the last `n` elements of a Python list (whole list if `n` is at
least the length). -/
def lastN {α : Type} (n : Nat) (l : List α) : List α :=
  l.drop (l.length - n)

/-- Python's `max(h :: t, key=key)`: scan left to right, replace the current
best only on a strictly larger key, so the first maximum wins. -/
def pythonMax {α : Type} (key : α → ℚ) (h : α) (t : List α) : α :=
  t.foldl (fun b x => if key b < key x then x else b) h

/-- Python's binary `max` (first argument wins ties). -/
def pyMax (a b : ℚ) : ℚ :=
  if a < b then b else a

/-- Python's binary `min` (first argument wins ties). -/
def pyMin (a b : ℚ) : ℚ :=
  if b < a then b else a

/-- An event travelling over the bus (`Event` dataclass): type discriminator,
payload, creation timestamp and source tag. -/
structure Event where
  type : String
  data : Val
  timestamp : Nat
  source : String

/-- The event bus state: the listener table (a dict from event type to the
list of subscribed callbacks, in subscription order) and the FIFO event
queue.  Callbacks are drawn from an abstract type `H`, compared by identity
as Python compares function objects. -/
structure EventBus (H : Type) where
  listeners : List (String × List H)
  event_queue : List Event

/-- `subscribe`: append the callback at the end of the type's handler list;
the `defaultdict` lazily creates the key with an empty list. -/
def EventBus.subscribe {H : Type} (bus : EventBus H) (event_type : String)
    (callback : H) : EventBus H :=
  let cur := (dictGet? bus.listeners event_type).getD []
  { bus with listeners := dictSet bus.listeners event_type (cur ++ [callback]) }

/-- `unsubscribe`: when the event type has a handler list, `list.remove`
deletes the first occurrence of the callback — and raises `ValueError` when
the callback is not in that list; when the type has never been seen, the
guard `event_type in self._listeners` makes the call a no-op. -/
def EventBus.unsubscribe {H : Type} [DecidableEq H] (bus : EventBus H)
    (event_type : String) (callback : H) : Except String (EventBus H) :=
  if dictContains bus.listeners event_type then
    let cur := (dictGet? bus.listeners event_type).getD []
    if callback ∈ cur then
      .ok { bus with listeners := dictSet bus.listeners event_type (cur.erase callback) }
    else
      .error "ValueError"
  else
    .ok bus

/-- `publish`: enqueue the event at the tail of the unbounded FIFO queue. -/
def EventBus.publish {H : Type} (bus : EventBus H) (event : Event) : EventBus H :=
  { bus with event_queue := bus.event_queue ++ [event] }

/-- `emit`: construct an `Event` and publish it. -/
def EventBus.emit {H : Type} (bus : EventBus H) (event_type : String) (data : Val)
    (now : Nat) (source : String) : EventBus H :=
  bus.publish ⟨event_type, data, now, source⟩

/-- A sequence of `publish` calls, in order. -/
def EventBus.publishAll {H : Type} (bus : EventBus H) (evs : List Event) : EventBus H :=
  evs.foldl EventBus.publish bus

/-- The handler list `_dispatch` reads: `self._listeners.get(event.type, [])`. -/
def handlersFor {H : Type} (listeners : List (String × List H)) (t : String) : List H :=
  (dictGet? listeners t).getD []

/-- `_dispatch`: invoke every handler currently subscribed to the event's
type, in subscription order, each awaited to completion before the next; the
result is the trace of invocations.  A handler fault is caught and logged,
so it neither removes the invocation from the trace nor stops dispatch. -/
def dispatch {H : Type} (listeners : List (String × List H)) (e : Event) :
    List (H × Event) :=
  (handlersFor listeners e.type).foldl (fun acc c => acc ++ [(c, e)]) []

/-- The `start` dispatch loop run to completion on the queued events: dequeue
in FIFO order and dispatch each event fully before the next. -/
def runLoop {H : Type} (listeners : List (String × List H)) : List Event → List (H × Event)
  | [] => []
  | e :: rest => dispatch listeners e ++ runLoop listeners rest

/-- Discriminates the `ValueError` outcome of a fallible call. -/
def exceptIsError {ε α : Type} : Except ε α → Bool
  | .error _ => true
  | .ok _ => false

/-- A memory entry: `{"type": ..., "data": ..., "timestamp": ...}`, with the
timestamp modelled as an integer tick. -/
structure MemoryEntry where
  type : String
  data : Val
  timestamp : Int

/-- The in-memory state of `MemoryModule`: capacity-bounded short-term deque,
long-term dict of per-type entry lists, and the per-type positional index.
File persistence is side I/O and is reported by `store` as a flag. -/
structure MemoryModule where
  max_short_term : Nat
  short_term : List MemoryEntry
  long_term : List (String × List MemoryEntry)
  index_by_type : List (String × List Nat)

/-- Construction: `_load` fills only the long-term map and the index (or
leaves them empty); the short-term deque always starts empty. -/
def mkMemoryModule (loaded_long_term : List (String × List MemoryEntry))
    (loaded_index : List (String × List Nat)) (max_short_term : Nat) : MemoryModule :=
  ⟨max_short_term, [], loaded_long_term, loaded_index⟩

/-- `deque(maxlen=m).append`: append on the right, evicting from the left
when the deque is full (a deque with `maxlen=0` stays empty). -/
def dequeAppend {α : Type} (m : Nat) (l : List α) (x : α) : List α :=
  (l ++ [x]).drop (l.length + 1 - m)

/-- `store(memory_type, data)`: build an entry, append it to the short-term
deque, append it to the type's long-term list (creating it if absent),
record its offset in the index, and trigger an asynchronous `persist()`
when the short-term deque length is a multiple of 10.  The returned flag
records whether `persist` was triggered. -/
def MemoryModule.store (m : MemoryModule) (memory_type : String) (data : Val)
    (now : Int) : MemoryModule × Bool :=
  let memory_entry : MemoryEntry := ⟨memory_type, data, now⟩
  let st := dequeAppend m.max_short_term m.short_term memory_entry
  let cur := (dictGet? m.long_term memory_type).getD []
  let lt := dictSet m.long_term memory_type (cur ++ [memory_entry])
  let idxCur := (dictGet? m.index_by_type memory_type).getD []
  let idx := dictSet m.index_by_type memory_type (idxCur ++ [(cur ++ [memory_entry]).length - 1])
  ({ m with short_term := st, long_term := lt, index_by_type := idx },
    decide (st.length % 10 = 0))

/-- `recall(query, limit)`: short-term entries of the queried type first,
then the long-term list for the type, then the `"recent_context"` special
query, otherwise `None`; each hit returns the last `limit` entries. -/
def MemoryModule.recall (m : MemoryModule) (query : String) (limit : Nat) :
    Option (List MemoryEntry) :=
  let short_term_results := m.short_term.filter (fun e => e.type = query)
  if short_term_results.isEmpty then
    if dictContains m.long_term query then
      some (lastN limit ((dictGet? m.long_term query).getD []))
    else if query = "recent_context" then
      let recent := lastN limit m.short_term
      if recent.isEmpty then none else some recent
    else
      none
  else
    some (lastN limit short_term_results)

/-- `forget(memory_type, older_than_days)`: keep only the long-term entries
of the type whose timestamp is strictly newer than `now − older_than_days`,
returning how many were dropped; all other state is untouched (the trailing
`persist()` is file I/O only). -/
def MemoryModule.forget (m : MemoryModule) (memory_type : String)
    (older_than_days : Nat) (now : Int) : Nat × MemoryModule :=
  let cutoff : Int := now - older_than_days
  match dictGet? m.long_term memory_type with
  | none => (0, m)
  | some orig =>
    let kept := orig.filter (fun e => cutoff < e.timestamp)
    (orig.length - kept.length, { m with long_term := dictSet m.long_term memory_type kept })

/-- A whole sequence of `store` calls, returning the final module state. -/
def MemoryModule.storeAll (m : MemoryModule) (inputs : List (String × Val × Int)) :
    MemoryModule :=
  inputs.foldl (fun acc i => (acc.store i.1 i.2.1 i.2.2).1) m

/-- The persist-trigger flags of a sequence of `store` calls, in call order. -/
def MemoryModule.storeFlags (m : MemoryModule) :
    List (String × Val × Int) → List Bool
  | [] => []
  | i :: rest =>
    let step := m.store i.1 i.2.1 i.2.2
    step.2 :: step.1.storeFlags rest

/-- The entry a `store` call with these arguments creates. -/
def entryOf (i : String × Val × Int) : MemoryEntry :=
  ⟨i.1, i.2.1, i.2.2⟩

/-- A reasoning rule: named condition/action callables with a static priority
and execution accounting.  The callables may raise (`.error`). -/
structure Rule where
  name : String
  condition : Val → Except String Bool
  action : Val → Except String Val
  priority : Int
  execution_count : Nat
  last_executed : Option Int

/-- `Rule.evaluate`: a condition that raises is caught and treated as
`False`. -/
def Rule.evaluate (r : Rule) (context : Val) : Bool :=
  match r.condition context with
  | .ok b => b
  | .error _ => false

/-- `Rule.execute`: on success the execution counter and timestamp are
updated and the result returned; an action that raises is caught, the
counter is NOT incremented (the increment sits after the call), and `None`
is returned. -/
def Rule.execute (r : Rule) (context : Val) (now : Int) : Option Val × Rule :=
  match r.action context with
  | .ok result =>
    (some result,
      { r with execution_count := r.execution_count + 1, last_executed := some now })
  | .error _ => (none, r)

/-- One record of `_reasoning_history`. -/
structure HistoryRecord where
  rule_used : String
  applicable_rules : List String
  decision : Option Val
  timestamp : Int

/-- The reasoning engine state: the priority-sorted rule list, the bounded
reasoning history, and the per-name adaptive weight dict. -/
structure ReasoningEngine where
  rules : List Rule
  reasoning_history : List HistoryRecord
  adaptive_weights : List (String × ℚ)

/-- `add_rule`: append the new rule (weight initialised to 1.0) and re-sort
the rule list descending by priority with a stable sort. -/
def ReasoningEngine.add_rule (es : ReasoningEngine) (name : String)
    (condition : Val → Except String Bool) (action : Val → Except String Val)
    (priority : Int) : ReasoningEngine :=
  let rule : Rule := ⟨name, condition, action, priority, 0, none⟩
  { es with
    rules := (es.rules ++ [rule]).mergeSort (fun a b => decide (b.priority ≤ a.priority)),
    adaptive_weights := dictSet es.adaptive_weights name 1 }

/-- `remove_rule`: drop the first rule with the name (and its weight) and
report whether a removal happened. -/
def ReasoningEngine.remove_rule (es : ReasoningEngine) (name : String) :
    Bool × ReasoningEngine :=
  match es.rules.findIdx? (fun r => r.name = name) with
  | none => (false, es)
  | some i =>
    (true, ⟨es.rules.eraseIdx i, es.reasoning_history, dictErase es.adaptive_weights name⟩)

/-- The reasoning context dict built at the top of `reason` (the timestamp
is serialised, as `isoformat()` produces a string). -/
def mkReasoningContext (perceptions : List Val) (context : Val) (now : Int) : Val :=
  Val.dict [("perceptions", Val.list perceptions), ("context", context),
    ("timestamp", Val.str (toString now)),
    ("perception_count", Val.num (perceptions.length : ℚ))]

/-- The sort key of the rule selection: `priority × adaptive_weights.get(name, 1.0)`. -/
def ruleKey (weights : List (String × ℚ)) (r : Rule) : ℚ :=
  (r.priority : ℚ) * ((dictGet? weights r.name).getD 1)

/-- `dict.get(k, default)` on a `Val`; `None` models the `AttributeError` of
calling `.get` on a non-dict. -/
def valDictGet (v : Val) (k : String) (dflt : Val) : Option Val :=
  match v with
  | .dict kvs => some ((dictGet? kvs k).getD dflt)
  | _ => none

/-- `len(v)` on a `Val`; `None` models the `TypeError` on unsized values. -/
def pyLen : Val → Option Nat
  | .list l => some l.length
  | .str s => some s.length
  | .dict kvs => some kvs.length
  | _ => none

/-- `_default_reasoning`: the fixed heuristic on the perception count used
when no rule is applicable. -/
def defaultReasoning (context : Val) : Option Val :=
  match valDictGet context "perceptions" (Val.list []) with
  | none => none
  | some p =>
    match pyLen p with
    | none => none
    | some n =>
      if n > 10 then
        some (Val.dict [("action", Val.str "process"), ("confidence", Val.num 0.6),
          ("reason", Val.str "many_perceptions")])
      else if n > 0 then
        some (Val.dict [("action", Val.str "observe"), ("confidence", Val.num 0.5),
          ("reason", Val.str "few_perceptions")])
      else
        some (Val.dict [("action", Val.str "wait"), ("confidence", Val.num 0.4),
          ("reason", Val.str "no_perceptions")])

/-- The applicable-rule list computed by the evaluation loop of `reason`:
every rule whose condition holds on the reasoning context, in rule order,
tagged with its position in the rule list (standing for Python's object
identity). -/
def ReasoningEngine.applicableOf (es : ReasoningEngine) (perceptions : List Val)
    (context : Val) (now : Int) : List (Nat × Rule) :=
  es.rules.enum.filter (fun p => p.2.evaluate (mkReasoningContext perceptions context now))

/-- `reason(perceptions, context)`: evaluate every rule against the built
reasoning context in rule order; with no applicable rule fall back to the
default heuristic (no history record); otherwise select the applicable rule
maximising `priority × weight` with Python's first-maximum `max`, execute
it (mutating that rule in place), append a history record (truncated to the
last 500 once the length exceeds 1000) and return the decision (`none` when
the action raised). -/
def ReasoningEngine.reason (es : ReasoningEngine) (perceptions : List Val)
    (context : Val) (now : Int) : Option Val × ReasoningEngine :=
  let reasoning_context := mkReasoningContext perceptions context now
  match es.applicableOf perceptions context now with
  | [] => (defaultReasoning reasoning_context, es)
  | a :: rest =>
    let best := pythonMax (fun p => ruleKey es.adaptive_weights p.2) a rest
    let step := best.2.execute reasoning_context now
    let record : HistoryRecord :=
      ⟨best.2.name, (a :: rest).map (fun p => p.2.name), step.1, now⟩
    let hist := es.reasoning_history ++ [record]
    let hist' := if hist.length > 1000 then lastN 500 hist else hist
    (step.1, { es with rules := es.rules.set best.1 step.2, reasoning_history := hist' })

/-- `adapt(rule_name, performance_score)`: shift the rule's weight by
`(score − 0.5) × 0.1`, clamped to [0.1, 2.0]; a no-op when the name has no
weight entry. -/
def ReasoningEngine.adapt (es : ReasoningEngine) (rule_name : String)
    (performance_score : ℚ) : ReasoningEngine :=
  match dictGet? es.adaptive_weights rule_name with
  | none => es
  | some current_weight =>
    let adjustment := (performance_score - 0.5) * 0.1
    let new_weight := pyMax 0.1 (pyMin 2.0 (current_weight + adjustment))
    { es with adaptive_weights := dictSet es.adaptive_weights rule_name new_weight }

/-- The `_state` strings of `CognitiveCore`. -/
inductive CoreState where
  | idle
  | running
  | stopped
deriving DecidableEq

/-- The state-machine-relevant fields of a `CognitiveCore` instance. -/
structure CoreSt where
  state : CoreState
  running : Bool
deriving DecidableEq

/-- The operations on a `CognitiveCore` instance that touch `_state` or
`_running`:
* `runStart` — the entry of `run()`: unconditionally sets `_running = True`
  and `_state = "running"`;
* `loopCheck` — the `while self._running` test: when the flag is still set
  the loop body runs (no state change); when it is clear the loop exits and
  the `finally` block sets `_state = "stopped"`;
* `stopSignal` — `stop()`: clears `_running` only;
* `cycleStep` — `cognitive_cycle`, `perceive`, `think`, `act`, `state`:
  none of them touch the two fields. -/
inductive CoreOp where
  | runStart
  | loopCheck
  | stopSignal
  | cycleStep
deriving DecidableEq

/-- One operation's effect on the core state. -/
def applyOp : CoreSt → CoreOp → CoreSt
  | _, .runStart => ⟨.running, true⟩
  | s, .loopCheck => if s.running then s else ⟨.stopped, false⟩
  | s, .stopSignal => ⟨s.state, false⟩
  | s, .cycleStep => s

/-- A sequence of operations applied in order. -/
def applyOps (s : CoreSt) (ops : List CoreOp) : CoreSt :=
  ops.foldl applyOp s

/-- A freshly constructed core: `_state = "idle"`, `_running = False`. -/
def coreInit : CoreSt :=
  ⟨.idle, false⟩

theorem dictGet?_dictSet_self {β : Type} (d : List (String × β)) (k : String) (v : β) :
    dictGet? (dictSet d k v) k = some v := by
  induction d with
  | nil => simp [dictGet?, dictSet]
  | cons p ps ih =>
    by_cases h : p.1 = k
    · simp [dictGet?, dictSet, h, List.find?]
    · simpa [dictGet?, dictSet, h, List.find?] using ih

theorem dictGet?_dictSet_ne {β : Type} (d : List (String × β)) (k k' : String) (v : β)
    (h : k' ≠ k) : dictGet? (dictSet d k v) k' = dictGet? d k' := by
  induction d with
  | nil => simp [dictGet?, dictSet, List.find?, Ne.symm h]
  | cons p ps ih =>
    by_cases hp : p.1 = k
    · subst hp
      simp [dictGet?, dictSet, List.find?, Ne.symm h]
    · by_cases hp' : p.1 = k'
      · simp [dictGet?, dictSet, hp, List.find?, hp', h]
      · simpa [dictGet?, dictSet, hp, List.find?, hp'] using ih

theorem lastN_zero {α : Type} (l : List α) : lastN 0 l = [] := by
  simp [lastN]

theorem length_lastN {α : Type} (n : Nat) (l : List α) :
    (lastN n l).length = min n l.length := by
  simp [lastN]
  omega

theorem lastN_append_singleton {α : Type} {n : Nat} (hn : 1 ≤ n) (l : List α) (x : α) :
    lastN n (l ++ [x]) = lastN (n - 1) l ++ [x] := by
  unfold lastN
  rw [List.length_append, List.length_singleton]
  have h1 : l.length + 1 - n ≤ l.length := by omega
  rw [List.drop_append_of_le_length h1]
  have h2 : l.length + 1 - n = l.length - (n - 1) := by omega
  rw [h2]

theorem lastN_lastN {α : Type} (n k : Nat) (l : List α) :
    lastN n (lastN k l) = lastN (min n k) l := by
  unfold lastN
  rw [List.drop_drop]
  congr 1
  rw [List.length_drop]
  omega

theorem lastN_of_length_le {α : Type} {n : Nat} {l : List α} (h : l.length ≤ n) :
    lastN n l = l := by
  unfold lastN
  rw [Nat.sub_eq_zero_of_le h, List.drop_zero]

theorem getLast?_lastN {α : Type} {n : Nat} (hn : 1 ≤ n) (l : List α) :
    (lastN n l).getLast? = l.getLast? := by
  induction l using List.reverseRecOn with
  | nil => simp [lastN]
  | append_singleton ys y _ =>
    rw [lastN_append_singleton hn]
    simp

theorem lastN_ne_nil {α : Type} {n : Nat} (hn : 1 ≤ n) {l : List α} (hl : l ≠ []) :
    lastN n l ≠ [] := by
  have hlen := length_lastN n l
  intro hcon
  rw [hcon] at hlen
  simp only [List.length_nil] at hlen
  have hl' : l.length ≠ 0 := fun h => hl (List.length_eq_zero.mp h)
  omega

/-- `list.set i l[i]` leaves the list unchanged. -/
theorem set_self {α : Type} (l : List α) (i : Nat) (hi : i < l.length) :
    l.set i (l.get ⟨i, hi⟩) = l := by
  induction l generalizing i with
  | nil => simp at hi
  | cons a as ih =>
    cases i with
    | zero => simp
    | succ j =>
      simp only [List.set]
      have hj : j < as.length := by
        simpa using Nat.lt_of_succ_lt_succ (by simpa using hi)
      simp only [List.cons.injEq, true_and]
      exact ih j hj

/-- `pythonMax` returns the earliest element attaining the maximal key:
everything before it is strictly smaller, everything after it is at most it. -/
theorem pythonMax_spec {α : Type} (key : α → ℚ) :
    ∀ (t : List α) (h : α), ∃ l1 l2,
      h :: t = l1 ++ pythonMax key h t :: l2 ∧
      (∀ a ∈ l1, key a < key (pythonMax key h t)) ∧
      (∀ a ∈ l2, key a ≤ key (pythonMax key h t)) := by
  intro t
  induction t with
  | nil =>
    intro h
    exact ⟨[], [], rfl, by simp, by simp⟩
  | cons x t' ih =>
    intro h
    by_cases hlt : key h < key x
    · have hstep : pythonMax key h (x :: t') = pythonMax key x t' := by
        simp [pythonMax, List.foldl, hlt]
      obtain ⟨l1', l2', hdec, hl1, hl2⟩ := ih x
      rw [hstep]
      have hxm : key x ≤ key (pythonMax key x t') := by
        cases l1' with
        | nil =>
          have hx := (List.cons.injEq _ _ _ _ ▸ hdec).1
          exact le_of_eq (congrArg key hx)
        | cons a' l1'' =>
          have hx : x = a' := by
            rw [List.cons_append] at hdec
            exact (List.cons.injEq _ _ _ _ ▸ hdec).1
          exact le_of_lt (hx ▸ hl1 a' (List.mem_cons_self a' l1''))
      refine ⟨h :: l1', l2', ?_, ?_, hl2⟩
      · rw [List.cons_append, ← hdec]
      · intro a ha
        rcases List.mem_cons.mp ha with rfl | ha'
        · exact lt_of_lt_of_le hlt hxm
        · exact hl1 a ha'
    · have hstep : pythonMax key h (x :: t') = pythonMax key h t' := by
        simp [pythonMax, List.foldl, hlt]
      obtain ⟨l1', l2', hdec, hl1, hl2⟩ := ih h
      rw [hstep]
      have hxh : key x ≤ key h := le_of_not_lt hlt
      cases l1' with
      | nil =>
        have hh : h = pythonMax key h t' := (List.cons.injEq _ _ _ _ ▸ hdec).1
        have ht' : t' = l2' := (List.cons.injEq _ _ _ _ ▸ hdec).2
        refine ⟨[], x :: l2', ?_, by simp, ?_⟩
        · rw [List.nil_append, ← hh, ht']
        · intro a ha
          rcases List.mem_cons.mp ha with rfl | ha'
          · exact le_trans hxh (le_of_eq (congrArg key hh))
          · exact hl2 a ha'
      | cons a' l1'' =>
        have hh : h = a' := by
          rw [List.cons_append] at hdec
          exact (List.cons.injEq _ _ _ _ ▸ hdec).1
        have ht' : t' = l1'' ++ pythonMax key h t' :: l2' := by
          rw [List.cons_append] at hdec
          exact (List.cons.injEq _ _ _ _ ▸ hdec).2
        have hhm : key h < key (pythonMax key h t') :=
          hh ▸ hl1 a' (List.mem_cons_self a' l1'')
        refine ⟨h :: x :: l1'', l2', ?_, ?_, hl2⟩
        · conv_lhs => rw [ht']
          simp [List.cons_append]
        · intro a ha
          rcases List.mem_cons.mp ha with rfl | ha'
          · exact hhm
          · rcases List.mem_cons.mp ha' with rfl | ha''
            · exact lt_of_le_of_lt hxh hhm
            · exact hl1 a (hh ▸ List.mem_cons_of_mem a' ha'')

theorem publishAll_queue {H : Type} (bus : EventBus H) (evs : List Event) :
    (bus.publishAll evs).event_queue = bus.event_queue ++ evs := by
  induction evs generalizing bus with
  | nil => simp [EventBus.publishAll]
  | cons e rest ih =>
    show (EventBus.publishAll (bus.publish e) rest).event_queue = _
    rw [ih]
    simp [EventBus.publish]

theorem foldl_append_map {α β : Type} (f : α → β) :
    ∀ (l : List α) (acc : List β),
      l.foldl (fun a c => a ++ [f c]) acc = acc ++ l.map f := by
  intro l
  induction l with
  | nil => intro acc; simp
  | cons x xs ih =>
    intro acc
    simp only [List.foldl, List.map]
    rw [ih]
    simp

/-- The for-loop of `_dispatch` invokes exactly the type's handlers, in
subscription order, pairing each with the event. -/
theorem dispatch_eq_map {H : Type} (listeners : List (String × List H)) (e : Event) :
    dispatch listeners e = (handlersFor listeners e.type).map (fun c => (c, e)) := by
  unfold dispatch
  simpa using foldl_append_map (fun c => (c, e)) (handlersFor listeners e.type) []

theorem filter_eq_of_count_one {H : Type} [DecidableEq H] (h : H) :
    ∀ (l : List H), l.count h = 1 → l.filter (fun c => decide (c = h)) = [h] := by
  intro l
  induction l with
  | nil => intro hc; simp [List.count_nil] at hc
  | cons a as ih =>
    intro hc
    by_cases hah : a = h
    · subst hah
      have hz : as.count a = 0 := by
        rw [List.count_cons_self] at hc
        omega
      have hnil : as.filter (fun c => decide (c = a)) = [] := by
        rw [List.filter_eq_nil_iff]
        intro b hb
        simp only [decide_eq_true_eq]
        intro hba
        exact (List.count_eq_zero.mp hz) (hba ▸ hb)
      simp [List.filter_cons, hnil]
    · have hc' : as.count h = 1 := by
        rwa [List.count_cons_of_ne (fun hha => hah hha.symm)] at hc
      simpa [List.filter_cons, hah] using ih hc'

/-- One event's dispatch block, as observed by a handler subscribed exactly
once to type `t` and to nothing else. -/
theorem dispatch_observed {H : Type} [DecidableEq H] (ls : List (String × List H))
    (e : Event) (h : H) (t : String)
    (h1 : (handlersFor ls t).count h = 1)
    (h2 : ∀ t', t' ≠ t → h ∉ handlersFor ls t') :
    ((dispatch ls e).filter (fun p => decide (p.1 = h))).map (fun p => p.2)
      = if e.type = t then [e] else [] := by
  rw [dispatch_eq_map, List.filter_map]
  by_cases ht : e.type = t
  · rw [if_pos ht, ht]
    have hfe : (handlersFor ls t).filter
        ((fun p : H × Event => decide (p.1 = h)) ∘ (fun c => (c, e))) = [h] :=
      filter_eq_of_count_one h _ h1
    rw [hfe]
    simp
  · rw [if_neg ht]
    have hnot : h ∉ handlersFor ls e.type := h2 e.type ht
    have hfe : (handlersFor ls e.type).filter
        ((fun p : H × Event => decide (p.1 = h)) ∘ (fun c => (c, e))) = [] := by
      rw [List.filter_eq_nil_iff]
      intro b hb
      simp only [Function.comp_apply, decide_eq_true_eq]
      intro hbh
      exact hnot (hbh ▸ hb)
    rw [hfe]
    simp

/-- A stable descending sort by an integer sort key preserves, for each key
value, the subsequence of elements carrying that value. -/
theorem mergeSort_filter_key {α : Type} (pri : α → Int) (l : List α) (q : Int) :
    ((l.mergeSort (fun a b => decide (pri b ≤ pri a))).filter (fun a => decide (pri a = q)))
      = l.filter (fun a => decide (pri a = q)) := by
  have htrans : ∀ a b c : α, (decide (pri b ≤ pri a)) = true →
      (decide (pri c ≤ pri b)) = true → (decide (pri c ≤ pri a)) = true := by
    intro a b c hab hbc
    simp only [decide_eq_true_eq] at *
    exact le_trans hbc hab
  have htot : ∀ a b : α, ((decide (pri b ≤ pri a)) || (decide (pri a ≤ pri b))) = true := by
    intro a b
    simp only [Bool.or_eq_true, decide_eq_true_eq]
    exact le_total (pri b) (pri a)
  have hcpw : (l.filter (fun a => decide (pri a = q))).Pairwise
      (fun a b => (decide (pri b ≤ pri a)) = true) := by
    apply List.pairwise_of_forall_mem_list
    intro a ha b hb
    have ha' := (List.mem_filter.mp ha).2
    have hb' := (List.mem_filter.mp hb).2
    simp only [decide_eq_true_eq] at ha' hb' ⊢
    rw [ha', hb']
  have hsub2 : (l.filter (fun a => decide (pri a = q))).Sublist
      (l.mergeSort (fun a b => decide (pri b ≤ pri a))) :=
    List.sublist_mergeSort htrans htot hcpw (List.filter_sublist l)
  have hcfilter : (l.filter (fun a => decide (pri a = q))).filter (fun a => decide (pri a = q))
      = l.filter (fun a => decide (pri a = q)) :=
    List.filter_eq_self.mpr (fun a ha => (List.mem_filter.mp ha).2)
  have hsub3 : (l.filter (fun a => decide (pri a = q))).Sublist
      ((l.mergeSort (fun a b => decide (pri b ≤ pri a))).filter (fun a => decide (pri a = q))) := by
    rw [← hcfilter]
    exact List.Sublist.filter _ hsub2
  have hperm : ((l.mergeSort (fun a b => decide (pri b ≤ pri a))).filter
      (fun a => decide (pri a = q))).Perm (l.filter (fun a => decide (pri a = q))) :=
    List.Perm.filter _ (List.mergeSort_perm l _)
  exact (hsub3.eq_of_length hperm.length_eq.symm).symm

theorem dictContains_eq_isSome {β : Type} (d : List (String × β)) (k : String) :
    dictContains d k = (dictGet? d k).isSome := by
  unfold dictContains dictGet?
  cases d.find? (fun p => p.1 = k) <;> rfl

/-- C2: with the subscription table fixed and the dispatch loop run to
completion on the queued events, a handler subscribed exactly once to type
`t` and to no other type observes exactly the events of type `t`, in publish
order; and each event's dispatch invokes the handlers of its type in
subscription order, each completed before the next (the invocation trace of
one event is exactly the subscription list in order). -/
theorem c2_handler_observes_fifo {H : Type} [DecidableEq H]
    (ls : List (String × List H)) (evs : List Event) (h : H) (t : String)
    (h1 : (handlersFor ls t).count h = 1)
    (h2 : ∀ t', t' ≠ t → h ∉ handlersFor ls t') :
    (((runLoop ls ((EventBus.publishAll ⟨ls, []⟩ evs).event_queue)).filter
        (fun p => decide (p.1 = h))).map (fun p => p.2))
      = evs.filter (fun e => decide (e.type = t))
    ∧ (∀ e : Event, dispatch ls e = (handlersFor ls e.type).map (fun c => (c, e))) := by
  constructor
  · rw [publishAll_queue]
    simp only [List.nil_append]
    induction evs with
    | nil => rfl
    | cons e rest ih =>
      show ((dispatch ls e ++ runLoop ls rest).filter _).map _ = _
      rw [List.filter_append, List.map_append, ih, dispatch_observed ls e h t h1 h2]
      by_cases ht : e.type = t
      · simp [List.filter_cons, ht]
      · simp [List.filter_cons, ht]
  · intro e
    exact dispatch_eq_map ls e

theorem c2_handler_observes_fifo_witness :
    (((handlersFor [("ping", [0]), ("pong", [1])] "ping").count 0 = 1)
      ∧ (∀ t', t' ≠ "ping" → (0 : Nat) ∉ handlersFor [("ping", [0]), ("pong", [1])] t'))
    ∧ ((((runLoop [("ping", [0]), ("pong", [1])]
          ((EventBus.publishAll ⟨[("ping", [0]), ("pong", [1])], []⟩
            [⟨"ping", Val.num 1, 0, "s"⟩, ⟨"pong", Val.num 2, 1, "s"⟩,
              ⟨"ping", Val.num 3, 2, "s"⟩]).event_queue)).filter
          (fun p => decide (p.1 = 0))).map (fun p => p.2))
        = [⟨"ping", Val.num 1, 0, "s"⟩, ⟨"pong", Val.num 2, 1, "s"⟩,
            ⟨"ping", Val.num 3, 2, "s"⟩].filter (fun e => decide (e.type = "ping"))
      ∧ (∀ e : Event, dispatch [("ping", [0]), ("pong", [1])] e
          = (handlersFor [("ping", [0]), ("pong", [1])] e.type).map (fun c => (c, e)))) := by
  have h2 : ∀ t', t' ≠ "ping" → (0 : Nat) ∉ handlersFor [("ping", [0]), ("pong", [1])] t' := by
    intro t' hne
    by_cases hp : t' = "pong"
    · subst hp
      decide
    · simp [handlersFor, dictGet?, List.find?, Ne.symm hne, Ne.symm hp]
  exact ⟨⟨rfl, h2⟩, c2_handler_observes_fifo _ _ 0 "ping" rfl h2⟩

/-- C6 counterexample: on a bus where handler `0` is subscribed to `"ping"`,
unsubscribing the different handler `1` from `"ping"` is not a no-op — the
`list.remove` call raises `ValueError`, because the type's handler list
exists but does not contain the handler. -/
theorem c6_unsubscribe_counterexample :
    exceptIsError ((EventBus.subscribe (⟨[], []⟩ : EventBus Nat) "ping" 0).unsubscribe
      "ping" 1) = true := by
  rfl

/-- C6 (amended): `unsubscribe` removes the first registration of the handler
for the type when one exists, and is a no-op raising no error when the type
has never been seen; but when the type's handler list exists and does not
contain the handler (including after all its handlers were removed, or when
only other handlers are registered), the `list.remove` call raises
`ValueError`. -/
theorem c6_unsubscribe_cases {H : Type} [DecidableEq H] (bus : EventBus H)
    (event_type : String) (callback : H) :
    (dictContains bus.listeners event_type = false →
      bus.unsubscribe event_type callback = .ok bus)
    ∧ (callback ∈ handlersFor bus.listeners event_type →
      bus.unsubscribe event_type callback = .ok
        ⟨dictSet bus.listeners event_type
          ((handlersFor bus.listeners event_type).erase callback), bus.event_queue⟩)
    ∧ (dictContains bus.listeners event_type = true →
      callback ∉ handlersFor bus.listeners event_type →
      bus.unsubscribe event_type callback = .error "ValueError") := by
  refine ⟨?_, ?_, ?_⟩
  · intro hc
    simp [EventBus.unsubscribe, hc]
  · intro hmem
    have hcont : dictContains bus.listeners event_type = true := by
      rw [dictContains_eq_isSome]
      cases hq : dictGet? bus.listeners event_type with
      | none =>
        rw [handlersFor, hq] at hmem
        simp at hmem
      | some l => rfl
    simp only [EventBus.unsubscribe, hcont, if_true]
    simp only [handlersFor] at hmem ⊢
    rw [if_pos hmem]
  · intro hc hnot
    simp only [handlersFor] at hnot
    simp [EventBus.unsubscribe, hc, hnot]

theorem c6_unsubscribe_cases_witness :
    (dictContains (EventBus.subscribe (⟨[], []⟩ : EventBus Nat) "ping" 0).listeners
        "ping" = true
      ∧ (1 : Nat) ∉ handlersFor
          (EventBus.subscribe (⟨[], []⟩ : EventBus Nat) "ping" 0).listeners "ping")
    ∧ (EventBus.subscribe (⟨[], []⟩ : EventBus Nat) "ping" 0).unsubscribe "ping" 1
        = .error "ValueError" := by
  refine ⟨⟨rfl, by decide⟩, ?_⟩
  exact (c6_unsubscribe_cases _ "ping" 1).2.2 rfl (by decide)

theorem drop_append_add {α : Type} (X l2 : List α) (k : Nat) :
    (X ++ l2).drop (X.length + k) = l2.drop k :=
  List.drop_append k

theorem lastN_append_left_irrel {α : Type} {n : Nat} {l2 : List α}
    (hn : n ≤ l2.length) (X : List α) :
    lastN n (X ++ l2) = lastN n l2 := by
  unfold lastN
  rw [List.length_append]
  have h : X.length + l2.length - n = X.length + (l2.length - n) := by omega
  rw [h, drop_append_add]

theorem lastN_append_ge {α : Type} (n : Nat) (l l2 : List α) (hc : l2.length ≤ n) :
    lastN n (l ++ l2) = lastN (n - l2.length) l ++ l2 := by
  unfold lastN
  rw [List.length_append]
  have h2 : l.length + l2.length - n ≤ l.length := by omega
  rw [List.drop_append_of_le_length h2]
  congr 2
  omega

/-- Re-bounding an already-bounded window before appending more elements
does not change the final window. -/
theorem lastN_append_eq {α : Type} (n : Nat) (l l2 : List α) :
    lastN n (lastN n l ++ l2) = lastN n (l ++ l2) := by
  by_cases hc : n ≤ l2.length
  · rw [lastN_append_left_irrel hc, lastN_append_left_irrel hc]
  · push_neg at hc
    have hc' : l2.length ≤ n := le_of_lt hc
    rw [lastN_append_ge n (lastN n l) l2 hc', lastN_append_ge n l l2 hc', lastN_lastN]
    congr 2
    omega

theorem mkMemoryModule_short_term (lt : List (String × List MemoryEntry))
    (idx : List (String × List Nat)) (mx : Nat) :
    (mkMemoryModule lt idx mx).short_term = [] := rfl

theorem mkMemoryModule_max (lt : List (String × List MemoryEntry))
    (idx : List (String × List Nat)) (mx : Nat) :
    (mkMemoryModule lt idx mx).max_short_term = mx := rfl

theorem store_short_term (m : MemoryModule) (t : String) (d : Val) (now : Int) :
    ((m.store t d now).1).short_term
      = lastN m.max_short_term (m.short_term ++ [⟨t, d, now⟩]) := by
  simp [MemoryModule.store, dequeAppend, lastN]

theorem store_max_short_term (m : MemoryModule) (t : String) (d : Val) (now : Int) :
    ((m.store t d now).1).max_short_term = m.max_short_term := rfl

theorem store_flag (m : MemoryModule) (t : String) (d : Val) (now : Int) :
    (m.store t d now).2
      = decide ((min (m.short_term.length + 1) m.max_short_term) % 10 = 0) := by
  have hlen : (dequeAppend m.max_short_term m.short_term (⟨t, d, now⟩ : MemoryEntry)).length
      = min (m.short_term.length + 1) m.max_short_term := by
    simp [dequeAppend]
    omega
  simp [MemoryModule.store, hlen]

theorem storeAll_short_term :
    ∀ (inputs : List (String × Val × Int)) (m : MemoryModule),
      m.short_term.length ≤ m.max_short_term →
      (m.storeAll inputs).short_term
        = lastN m.max_short_term (m.short_term ++ inputs.map entryOf) := by
  intro inputs
  induction inputs with
  | nil =>
    intro m hle
    show m.short_term = lastN m.max_short_term (m.short_term ++ [])
    rw [List.append_nil, lastN_of_length_le hle]
  | cons i rest ih =>
    intro m hle
    show ((m.store i.1 i.2.1 i.2.2).1.storeAll rest).short_term = _
    have h1 := store_short_term m i.1 i.2.1 i.2.2
    have hlen : (m.store i.1 i.2.1 i.2.2).1.short_term.length ≤
        (m.store i.1 i.2.1 i.2.2).1.max_short_term := by
      rw [h1, store_max_short_term, length_lastN]
      omega
    rw [ih _ hlen, store_max_short_term, h1, lastN_append_eq]
    simp [entryOf]

/-- C3: for every capacity and every sequence of `store` calls on a freshly
constructed module, the short-term buffer is exactly the window of the most
recent `min(n, max_short_term)` stored entries in storage order, so its
length never exceeds the capacity; in particular, with capacity 10, eleven
stores of the values 1..11 leave exactly the entries for 2..11. -/
theorem c3_short_term_window (max_short_term : Nat)
    (loaded_long_term : List (String × List MemoryEntry))
    (loaded_index : List (String × List Nat))
    (inputs : List (String × Val × Int)) :
    ((mkMemoryModule loaded_long_term loaded_index max_short_term).storeAll inputs).short_term
        = lastN max_short_term (inputs.map entryOf)
    ∧ ((mkMemoryModule loaded_long_term loaded_index max_short_term).storeAll
        inputs).short_term.length = min inputs.length max_short_term
    ∧ ((mkMemoryModule loaded_long_term loaded_index max_short_term).storeAll
        inputs).short_term.length ≤ max_short_term
    ∧ ((mkMemoryModule [] [] 10).storeAll
          ((List.range 11).map
            (fun (i : Nat) => ("x", Val.num ((i + 1 : Nat) : ℚ), ((i : Nat) : Int))))).short_term
        = (List.range 10).map
            (fun (i : Nat) =>
              (⟨"x", Val.num ((i + 2 : Nat) : ℚ), ((i + 1 : Nat) : Int)⟩ : MemoryEntry)) := by
  have hmain := storeAll_short_term inputs (mkMemoryModule loaded_long_term loaded_index
    max_short_term) (by rw [mkMemoryModule_short_term]; simp)
  rw [mkMemoryModule_short_term, mkMemoryModule_max, List.nil_append] at hmain
  refine ⟨hmain, ?_, ?_, ?_⟩
  · rw [hmain, length_lastN, List.length_map]
    omega
  · rw [hmain, length_lastN]
    omega
  · rfl

/-- C5 (amended): the `n`-th `store` call on a freshly constructed module
triggers the asynchronous persist if and only if the short-term buffer
length after that call — `min(n, max_short_term)` — is a multiple of 10
(the code tests `len(self._short_term) % 10 == 0`, and the deque length
saturates at the capacity). -/
theorem c5_persist_trigger (max_short_term : Nat)
    (loaded_long_term : List (String × List MemoryEntry))
    (loaded_index : List (String × List Nat))
    (inputs : List (String × Val × Int)) :
    ∀ n, n < inputs.length →
      ((mkMemoryModule loaded_long_term loaded_index max_short_term).storeFlags
          inputs)[n]?
        = some (decide ((min (n + 1) max_short_term) % 10 = 0)) := by
  suffices hgen : ∀ (inputs : List (String × Val × Int)) (m : MemoryModule),
      m.short_term.length ≤ m.max_short_term →
      ∀ n, n < inputs.length →
        (m.storeFlags inputs)[n]?
          = some (decide ((min (m.short_term.length + n + 1) m.max_short_term) % 10 = 0)) by
    intro n hn
    have h := hgen inputs (mkMemoryModule loaded_long_term loaded_index max_short_term)
      (by rw [mkMemoryModule_short_term]; simp) n hn
    rw [mkMemoryModule_short_term, mkMemoryModule_max] at h
    simpa using h
  intro inputs
  induction inputs with
  | nil =>
    intro m hle n hn
    simp at hn
  | cons i rest ih =>
    intro m hle n hn
    cases n with
    | zero =>
      show ((m.store i.1 i.2.1 i.2.2).2 :: _)[0]? = _
      rw [List.getElem?_cons_zero, store_flag]
    | succ k =>
      show ((m.store i.1 i.2.1 i.2.2).2 :: (m.store i.1 i.2.1 i.2.2).1.storeFlags
        rest)[k + 1]? = _
      rw [List.getElem?_cons_succ]
      have h1 := store_short_term m i.1 i.2.1 i.2.2
      have hlen : (m.store i.1 i.2.1 i.2.2).1.short_term.length
          = min (m.short_term.length + 1) m.max_short_term := by
        rw [h1, length_lastN]
        simp
        omega
      have hle1 : (m.store i.1 i.2.1 i.2.2).1.short_term.length ≤
          (m.store i.1 i.2.1 i.2.2).1.max_short_term := by
        rw [hlen, store_max_short_term]
        omega
      have hk : k < rest.length := by
        simpa using Nat.lt_of_succ_lt_succ (by simpa using hn)
      rw [ih _ hle1 k hk, hlen, store_max_short_term]
      have harith : min (min (m.short_term.length + 1) m.max_short_term + k + 1)
          m.max_short_term
          = min (m.short_term.length + (k + 1) + 1) m.max_short_term := by
        omega
      rw [harith]

theorem c5_persist_trigger_witness :
    (9 < ((List.range 10).map (fun (i : Nat) => ("x", Val.num (i : ℚ), (i : Int)))).length)
    ∧ ((mkMemoryModule [] [] 100).storeFlags
          ((List.range 10).map (fun (i : Nat) => ("x", Val.num (i : ℚ), (i : Int)))))[9]?
        = some (decide ((min (9 + 1) 100) % 10 = 0)) := by
  refine ⟨by simp, ?_⟩
  exact c5_persist_trigger 100 [] []
    ((List.range 10).map (fun (i : Nat) => ("x", Val.num (i : ℚ), (i : Int)))) 9 (by simp)

/-- C5 counterexample: with capacity 10, the 11th store triggers a persist
(the deque length is saturated at 10 and `10 % 10 == 0`) although 11 is not
a multiple of 10, refuting "persist iff the store ordinal is a multiple of
10". -/
theorem c5_persist_counterexample :
    ((mkMemoryModule [] [] 10).storeFlags
        ((List.range 11).map (fun (i : Nat) => ("x", Val.num (i : ℚ), (i : Int)))))[10]?
      = some true
    ∧ ¬ ((10 + 1) % 10 = 0) := by
  exact ⟨rfl, by decide⟩

/-- C8: a `store` immediately followed by `recall` of the same type with a
positive limit returns a non-empty result whose most recent (last) element
is exactly the entry just created, carrying the stored type and datum. -/
theorem c8_store_then_recall (m : MemoryModule) (t : String) (d : Val) (now : Int)
    (limit : Nat) (hl : 1 ≤ limit) :
    ∃ res, ((m.store t d now).1).recall t limit = some res ∧ res ≠ []
      ∧ res.getLast? = some (⟨t, d, now⟩ : MemoryEntry) := by
  have hshort := store_short_term m t d now
  by_cases hmax : m.max_short_term = 0
  · -- the deque ignores appends; the long-term list serves the recall
    have hempty : ((m.store t d now).1).short_term = [] := by
      rw [hshort, hmax, lastN_zero]
    have hlt : dictGet? ((m.store t d now).1).long_term t
        = some (((dictGet? m.long_term t).getD []) ++ [⟨t, d, now⟩]) := by
      simp [MemoryModule.store]
      exact dictGet?_dictSet_self _ _ _
    refine ⟨lastN limit (((dictGet? m.long_term t).getD []) ++ [⟨t, d, now⟩]), ?_, ?_, ?_⟩
    · unfold MemoryModule.recall
      rw [hempty]
      simp only [List.filter_nil, List.isEmpty_nil, if_true]
      rw [dictContains_eq_isSome, hlt]
      simp
    · exact lastN_ne_nil hl (by simp)
    · rw [getLast?_lastN hl, List.getLast?_concat]
  · -- the new entry survives at the tail of the short-term window
    have hone : 1 ≤ m.max_short_term := Nat.one_le_iff_ne_zero.mpr hmax
    have hshort' : ((m.store t d now).1).short_term
        = lastN (m.max_short_term - 1) m.short_term ++ [⟨t, d, now⟩] := by
      rw [hshort, lastN_append_singleton hone]
    have hfilter : ((m.store t d now).1).short_term.filter (fun e => e.type = t)
        = (lastN (m.max_short_term - 1) m.short_term).filter (fun e => e.type = t)
          ++ [⟨t, d, now⟩] := by
      rw [hshort', List.filter_append]
      simp
    refine ⟨lastN limit (((lastN (m.max_short_term - 1) m.short_term).filter
      (fun e => e.type = t)) ++ [⟨t, d, now⟩]), ?_, ?_, ?_⟩
    · unfold MemoryModule.recall
      rw [hfilter]
      have hne : ((lastN (m.max_short_term - 1) m.short_term).filter
          (fun e => e.type = t)) ++ [(⟨t, d, now⟩ : MemoryEntry)] ≠ [] := by
        simp
      simp only [List.isEmpty_eq_true, hne, if_false]
    · exact lastN_ne_nil hl (by simp)
    · rw [getLast?_lastN hl, List.getLast?_concat]

theorem c8_store_then_recall_witness :
    (1 ≤ 3)
    ∧ ∃ res, (((mkMemoryModule [] [] 10).store "obs" (Val.num 7) 5).1).recall "obs" 3
        = some res ∧ res ≠ []
      ∧ res.getLast? = some (⟨"obs", Val.num 7, 5⟩ : MemoryEntry) := by
  exact ⟨by decide, c8_store_then_recall (mkMemoryModule [] [] 10) "obs" (Val.num 7) 5 3
    (by decide)⟩

/-- C9: `forget(type, older_than_days)` keeps, in the long-term list of the
given type, exactly the entries with timestamp strictly newer than
`now − older_than_days`, and returns the number removed; the short-term
buffer, the capacity, the long-term lists of all other types, and the index
mapping are left unchanged. -/
theorem c9_forget_frame (m : MemoryModule) (memory_type : String)
    (older_than_days : Nat) (now : Int) :
    ((m.forget memory_type older_than_days now).2).short_term = m.short_term
    ∧ ((m.forget memory_type older_than_days now).2).index_by_type = m.index_by_type
    ∧ ((m.forget memory_type older_than_days now).2).max_short_term = m.max_short_term
    ∧ dictGet? ((m.forget memory_type older_than_days now).2).long_term memory_type
        = (dictGet? m.long_term memory_type).map
            (fun l => l.filter (fun e => now - older_than_days < e.timestamp))
    ∧ (∀ t', t' ≠ memory_type →
        dictGet? ((m.forget memory_type older_than_days now).2).long_term t'
          = dictGet? m.long_term t')
    ∧ (m.forget memory_type older_than_days now).1
        = ((dictGet? m.long_term memory_type).getD []).length
          - (((dictGet? m.long_term memory_type).getD []).filter
              (fun e => now - older_than_days < e.timestamp)).length := by
  unfold MemoryModule.forget
  cases hq : dictGet? m.long_term memory_type with
  | none =>
    refine ⟨rfl, rfl, rfl, ?_, fun t' _ => rfl, ?_⟩
    · simpa using hq
    · simp
  | some orig =>
    refine ⟨rfl, rfl, rfl, ?_, ?_, rfl⟩
    · simp only []
      rw [dictGet?_dictSet_self]
      rfl
    · intro t' ht'
      exact dictGet?_dictSet_ne _ _ _ _ ht'

theorem c9_forget_frame_witness :
    (((mkMemoryModule [("a", [⟨"a", Val.null, 1⟩, ⟨"a", Val.null, 9⟩]),
          ("b", [⟨"b", Val.null, 1⟩])] [] 5).forget "a" 3 10).2).short_term = []
    ∧ dictGet? (((mkMemoryModule [("a", [⟨"a", Val.null, 1⟩, ⟨"a", Val.null, 9⟩]),
          ("b", [⟨"b", Val.null, 1⟩])] [] 5).forget "a" 3 10).2).long_term "b"
        = dictGet? (mkMemoryModule [("a", [⟨"a", Val.null, 1⟩, ⟨"a", Val.null, 9⟩]),
          ("b", [⟨"b", Val.null, 1⟩])] [] 5).long_term "b" := by
  refine ⟨(c9_forget_frame _ "a" 3 10).1, ?_⟩
  exact (c9_forget_frame _ "a" 3 10).2.2.2.2.1 "b" (by decide)

theorem pyMax_eq_max (a b : ℚ) : pyMax a b = max a b := by
  by_cases h : a < b
  · rw [pyMax, if_pos h]
    exact (max_eq_right h.le).symm
  · rw [pyMax, if_neg h]
    exact (max_eq_left (le_of_not_lt h)).symm

theorem pyMin_eq_min (a b : ℚ) : pyMin a b = min a b := by
  by_cases h : b < a
  · rw [pyMin, if_pos h]
    exact (min_eq_right h.le).symm
  · rw [pyMin, if_neg h]
    exact (min_eq_left (le_of_not_lt h)).symm

theorem pythonMax_mem {α : Type} (key : α → ℚ) (h : α) (t : List α) :
    pythonMax key h t ∈ h :: t := by
  obtain ⟨l1, l2, hdec, -, -⟩ := pythonMax_spec key t h
  rw [hdec]
  exact List.mem_append.mpr (Or.inr (List.mem_cons_self _ _))

theorem set_of_getElem? {α : Type} {l : List α} {i : Nat} {a : α}
    (h : l[i]? = some a) : l.set i a = l := by
  obtain ⟨hlt, hget⟩ := List.getElem?_eq_some.mp h
  rw [← hget]
  have hself := set_self l i hlt
  rwa [List.get_eq_getElem] at hself

theorem applyOps_stopped_of_no_runStart :
    ∀ (ops : List CoreOp) (s : CoreSt), s.state = CoreState.stopped →
      CoreOp.runStart ∉ ops → (applyOps s ops).state = CoreState.stopped := by
  intro ops
  induction ops with
  | nil =>
    intro s hs _
    exact hs
  | cons op rest ih =>
    intro s hs hno
    have hop : op ≠ CoreOp.runStart := fun he => hno (by rw [he]; exact List.mem_cons_self _ _)
    have hrest : CoreOp.runStart ∉ rest := fun hm => hno (List.mem_cons_of_mem _ hm)
    show (applyOps (applyOp s op) rest).state = _
    apply ih _ _ hrest
    cases op with
    | runStart => exact absurd rfl hop
    | loopCheck =>
      by_cases hr : s.running
      · simpa [applyOp, hr] using hs
      · simp [applyOp, hr]
    | stopSignal => simpa [applyOp] using hs
    | cycleStep => simpa [applyOp] using hs

/-- C7 counterexample: an instance driven to the `stopped` state (run, stop,
loop exit) transitions straight back to `running` when `run()` is invoked
again — nothing in the code guards against re-running a stopped instance,
so `stopped` is not terminal. -/
theorem c7_stopped_counterexample :
    (applyOps coreInit [CoreOp.runStart, CoreOp.stopSignal, CoreOp.loopCheck]).state
      = CoreState.stopped
    ∧ (applyOps coreInit [CoreOp.runStart, CoreOp.stopSignal, CoreOp.loopCheck,
        CoreOp.runStart]).state = CoreState.running := by
  decide

/-- C7 (amended): once the state is `stopped` it remains `stopped` under every
operation sequence that never re-enters `run()` (stop signals, loop checks,
cognitive cycles); but invoking `run()` again unconditionally moves any
state — including `stopped` — back to `running`, so `stopped` is terminal
only in the absence of further `run` calls. -/
theorem c7_stopped_persists (s : CoreSt) (ops : List CoreOp)
    (hs : s.state = CoreState.stopped) (hno : CoreOp.runStart ∉ ops) :
    (applyOps s ops).state = CoreState.stopped
    ∧ (∀ s2 : CoreSt, (applyOp s2 CoreOp.runStart).state = CoreState.running) :=
  ⟨applyOps_stopped_of_no_runStart ops s hs hno, fun _ => rfl⟩

theorem c7_stopped_persists_witness :
    ((⟨CoreState.stopped, false⟩ : CoreSt).state = CoreState.stopped
      ∧ CoreOp.runStart ∉ [CoreOp.stopSignal, CoreOp.loopCheck, CoreOp.cycleStep])
    ∧ ((applyOps ⟨CoreState.stopped, false⟩ [CoreOp.stopSignal, CoreOp.loopCheck,
          CoreOp.cycleStep]).state = CoreState.stopped
      ∧ (∀ s2 : CoreSt, (applyOp s2 CoreOp.runStart).state = CoreState.running)) := by
  refine ⟨⟨rfl, by decide⟩, ?_⟩
  exact c7_stopped_persists _ _ rfl (by decide)

/-- C1: when at least one rule's condition evaluates to true, `reason`
returns the result of executing the applicable rule that maximises
`priority × adaptive weight`, and among the applicable rules attaining that
maximum it selects the one occurring earliest in the rule order (every
earlier applicable rule has a strictly smaller key, every later one a key
at most the selected one's) — deterministic first-encountered-maximum; and
`add_rule` keeps the rule list sorted descending by priority with a stable
sort: for each priority value the subsequence of rules carrying it is the
insertion-ordered one. -/
theorem c1_reason_selects_first_max (es : ReasoningEngine) (perceptions : List Val)
    (context : Val) (now : Int)
    (h : ∃ r ∈ es.rules, r.evaluate (mkReasoningContext perceptions context now) = true) :
    (∃ l1 best l2,
      es.applicableOf perceptions context now = l1 ++ best :: l2
      ∧ (∀ p ∈ l1, ruleKey es.adaptive_weights p.2 < ruleKey es.adaptive_weights best.2)
      ∧ (∀ p ∈ l2, ruleKey es.adaptive_weights p.2 ≤ ruleKey es.adaptive_weights best.2)
      ∧ (es.reason perceptions context now).1
          = (best.2.execute (mkReasoningContext perceptions context now) now).1)
    ∧ (∀ (es2 : ReasoningEngine) (nm : String) (cond : Val → Except String Bool)
        (act : Val → Except String Val) (pri : Int),
        ((es2.add_rule nm cond act pri).rules.Pairwise
          (fun a b => b.priority ≤ a.priority))
        ∧ (∀ q : Int, (es2.add_rule nm cond act pri).rules.filter
              (fun r => decide (r.priority = q))
            = (es2.rules ++ [Rule.mk nm cond act pri 0 none]).filter
              (fun r => decide (r.priority = q)))) := by
  constructor
  · cases happ : es.applicableOf perceptions context now with
    | nil =>
      exfalso
      obtain ⟨r, hr, he⟩ := h
      have hmem : r ∈ es.rules.enum.map Prod.snd := by
        rw [List.enum_map_snd]
        exact hr
      obtain ⟨p, hp, hpr⟩ := List.mem_map.mp hmem
      have hpf : p ∈ es.applicableOf perceptions context now :=
        List.mem_filter.mpr ⟨hp, by rw [hpr]; exact he⟩
      rw [happ] at hpf
      exact absurd hpf (List.not_mem_nil p)
    | cons a rest =>
      obtain ⟨l1, l2, hdec, hl1, hl2⟩ :=
        pythonMax_spec (fun p => ruleKey es.adaptive_weights p.2) rest a
      refine ⟨l1, pythonMax (fun p => ruleKey es.adaptive_weights p.2) a rest, l2,
        ?_, hl1, hl2, ?_⟩
      · exact hdec
      · unfold ReasoningEngine.reason
        simp only [happ]
  · intro es2 nm cond act pri
    have htrans : ∀ a b c : Rule, (decide (b.priority ≤ a.priority)) = true →
        (decide (c.priority ≤ b.priority)) = true →
        (decide (c.priority ≤ a.priority)) = true := by
      intro a b c hab hbc
      simp only [decide_eq_true_eq] at *
      exact le_trans hbc hab
    have htot : ∀ a b : Rule,
        ((decide (b.priority ≤ a.priority)) || (decide (a.priority ≤ b.priority))) = true := by
      intro a b
      simp only [Bool.or_eq_true, decide_eq_true_eq]
      exact le_total _ _
    constructor
    · have hsorted := List.sorted_mergeSort htrans htot
        (es2.rules ++ [Rule.mk nm cond act pri 0 none])
      have : (es2.add_rule nm cond act pri).rules
          = (es2.rules ++ [Rule.mk nm cond act pri 0 none]).mergeSort
            (fun a b => decide (b.priority ≤ a.priority)) := rfl
      rw [this]
      exact hsorted.imp (fun hab => of_decide_eq_true hab)
    · intro q
      have hf := mergeSort_filter_key (fun r : Rule => r.priority)
        (es2.rules ++ [Rule.mk nm cond act pri 0 none]) q
      have : (es2.add_rule nm cond act pri).rules
          = (es2.rules ++ [Rule.mk nm cond act pri 0 none]).mergeSort
            (fun a b => decide (b.priority ≤ a.priority)) := rfl
      rw [this]
      exact hf

theorem c1_reason_selects_first_max_witness :
    (∃ r ∈ (⟨[Rule.mk "a" (fun _ => .ok true) (fun _ => .ok Val.null) 2 0 none,
          Rule.mk "b" (fun _ => .ok true) (fun _ => .ok Val.null) 1 0 none], [], []⟩
        : ReasoningEngine).rules,
      r.evaluate (mkReasoningContext [] Val.null 0) = true)
    ∧ ((∃ l1 best l2,
        (⟨[Rule.mk "a" (fun _ => .ok true) (fun _ => .ok Val.null) 2 0 none,
            Rule.mk "b" (fun _ => .ok true) (fun _ => .ok Val.null) 1 0 none], [], []⟩
          : ReasoningEngine).applicableOf [] Val.null 0 = l1 ++ best :: l2
        ∧ (∀ p ∈ l1, ruleKey ([] : List (String × ℚ)) p.2 < ruleKey [] best.2)
        ∧ (∀ p ∈ l2, ruleKey ([] : List (String × ℚ)) p.2 ≤ ruleKey [] best.2)
        ∧ ((⟨[Rule.mk "a" (fun _ => .ok true) (fun _ => .ok Val.null) 2 0 none,
              Rule.mk "b" (fun _ => .ok true) (fun _ => .ok Val.null) 1 0 none], [], []⟩
            : ReasoningEngine).reason [] Val.null 0).1
            = (best.2.execute (mkReasoningContext [] Val.null 0) 0).1)
      ∧ (∀ (es2 : ReasoningEngine) (nm : String) (cond : Val → Except String Bool)
          (act : Val → Except String Val) (pri : Int),
          ((es2.add_rule nm cond act pri).rules.Pairwise
            (fun a b => b.priority ≤ a.priority))
          ∧ (∀ q : Int, (es2.add_rule nm cond act pri).rules.filter
                (fun r => decide (r.priority = q))
              = (es2.rules ++ [Rule.mk nm cond act pri 0 none]).filter
                (fun r => decide (r.priority = q))))) := by
  have h : ∃ r ∈ (⟨[Rule.mk "a" (fun _ => .ok true) (fun _ => .ok Val.null) 2 0 none,
        Rule.mk "b" (fun _ => .ok true) (fun _ => .ok Val.null) 1 0 none], [], []⟩
      : ReasoningEngine).rules,
      r.evaluate (mkReasoningContext [] Val.null 0) = true :=
    ⟨Rule.mk "a" (fun _ => .ok true) (fun _ => .ok Val.null) 2 0 none,
      List.mem_cons_self _ _, rfl⟩
  exact ⟨h, c1_reason_selects_first_max _ [] Val.null 0 h⟩

/-- C4 (amended): `adapt` on a present rule name replaces its weight by
`w + (score − 0.5) × 0.1` clamped to [0.1, 2.0]; the result always lies in
[0.1, 2.0]; the update is strictly increasing when `score > 0.5` AND the
weight is not already at the 2.0 cap, and strictly decreasing when
`score < 0.5` AND the weight is not already at the 0.1 floor; `adapt` on an
absent rule name changes nothing.  (At the reachable boundary weight 2.0 a
score above 0.5 leaves the weight unchanged, so the unqualified "strictly
increases" of the original claim fails.) -/
theorem c4_adapt_clamped (es : ReasoningEngine) (rule_name : String) (score : ℚ) :
    (dictGet? es.adaptive_weights rule_name = none → es.adapt rule_name score = es)
    ∧ (∀ w : ℚ, dictGet? es.adaptive_weights rule_name = some w →
        dictGet? (es.adapt rule_name score).adaptive_weights rule_name
            = some (max 0.1 (min 2.0 (w + (score - 0.5) * 0.1)))
          ∧ (0.1 : ℚ) ≤ max 0.1 (min 2.0 (w + (score - 0.5) * 0.1))
          ∧ max 0.1 (min 2.0 (w + (score - 0.5) * 0.1)) ≤ 2.0
          ∧ (0.5 < score → w < 2.0 → w < max 0.1 (min 2.0 (w + (score - 0.5) * 0.1)))
          ∧ (score < 0.5 → 0.1 < w →
              max 0.1 (min 2.0 (w + (score - 0.5) * 0.1)) < w)) := by
  constructor
  · intro hn
    unfold ReasoningEngine.adapt
    rw [hn]
  · intro w hw
    have hset : dictGet? (es.adapt rule_name score).adaptive_weights rule_name
        = some (pyMax 0.1 (pyMin 2.0 (w + (score - 0.5) * 0.1))) := by
      unfold ReasoningEngine.adapt
      rw [hw]
      exact dictGet?_dictSet_self _ _ _
    rw [pyMax_eq_max, pyMin_eq_min] at hset
    refine ⟨hset, le_max_left _ _, max_le (by norm_num) (min_le_left _ _), ?_, ?_⟩
    · intro hs hw2
      have hd : 0 < (score - 0.5) * 0.1 := mul_pos (by linarith) (by norm_num)
      rcases le_total (w + (score - 0.5) * 0.1) 2.0 with h2 | h2
      · rw [min_eq_right h2]
        exact lt_of_lt_of_le (by linarith) (le_max_right _ _)
      · rw [min_eq_left h2, max_eq_right (by norm_num : (0.1 : ℚ) ≤ 2.0)]
        exact hw2
    · intro hs hw1
      have hd : (score - 0.5) * 0.1 < 0 := mul_neg_of_neg_of_pos (by linarith) (by norm_num)
      rcases le_total (w + (score - 0.5) * 0.1) 2.0 with h2 | h2
      · rw [min_eq_right h2]
        exact max_lt (by linarith) (by linarith)
      · rw [min_eq_left h2, max_eq_right (by norm_num : (0.1 : ℚ) ≤ 2.0)]
        linarith

theorem c4_adapt_clamped_witness :
    (dictGet? (⟨[], [], [("r", 1)]⟩ : ReasoningEngine).adaptive_weights "r" = some 1)
    ∧ (dictGet? ((⟨[], [], [("r", 1)]⟩ : ReasoningEngine).adapt "r" 1).adaptive_weights "r"
          = some (max 0.1 (min 2.0 (1 + ((1 : ℚ) - 0.5) * 0.1)))
      ∧ (0.1 : ℚ) ≤ max 0.1 (min 2.0 (1 + ((1 : ℚ) - 0.5) * 0.1))
      ∧ max 0.1 (min 2.0 (1 + ((1 : ℚ) - 0.5) * 0.1)) ≤ 2.0
      ∧ ((0.5 : ℚ) < 1 → (1 : ℚ) < 2.0 →
          (1 : ℚ) < max 0.1 (min 2.0 (1 + ((1 : ℚ) - 0.5) * 0.1)))
      ∧ ((1 : ℚ) < 0.5 → (0.1 : ℚ) < 1 →
          max 0.1 (min 2.0 (1 + ((1 : ℚ) - 0.5) * 0.1)) < 1)) :=
  ⟨rfl, (c4_adapt_clamped ⟨[], [], [("r", 1)]⟩ "r" 1).2 1 rfl⟩

/-- C4 counterexample: a rule whose weight sits at the 2.0 cap (reachable,
since the clamp pins the weight to exactly 2.0 after twenty maximal-score
adapts from the initial 1.0) is NOT strictly increased by an `adapt` with
score 1 > 0.5 — the weight stays exactly 2. -/
theorem c4_adapt_counterexample :
    dictGet? (⟨[Rule.mk "r" (fun _ => .ok true) (fun _ => .ok Val.null) 0 0 none], [],
        [("r", 2)]⟩ : ReasoningEngine).adaptive_weights "r" = some 2
    ∧ dictGet? ((⟨[Rule.mk "r" (fun _ => .ok true) (fun _ => .ok Val.null) 0 0 none], [],
          [("r", 2)]⟩ : ReasoningEngine).adapt "r" 1).adaptive_weights "r" = some 2
    ∧ ((0.5 : ℚ) < 1)
    ∧ ¬ ((2 : ℚ) < 2) := by
  refine ⟨rfl, ?_, by norm_num, by norm_num⟩
  have hset : dictGet? ((⟨[Rule.mk "r" (fun _ => .ok true) (fun _ => .ok Val.null) 0 0 none],
        [], [("r", 2)]⟩ : ReasoningEngine).adapt "r" 1).adaptive_weights "r"
      = some (pyMax 0.1 (pyMin 2.0 (2 + ((1 : ℚ) - 0.5) * 0.1))) := by
    unfold ReasoningEngine.adapt
    exact dictGet?_dictSet_self _ _ _
  rw [hset, pyMax_eq_max, pyMin_eq_min]
  congr 1
  rw [min_eq_left (by norm_num), max_eq_right (by norm_num)]
  norm_num

set_option maxHeartbeats 1600000 in
/-- C10: when some rule is applicable and the selected rule's action raises,
`reason` raises no exception: it returns `None` instead of a decision, the
rule list — including the selected rule's `execution_count` — is left
unchanged (the increment sits after the raising call), and a
reasoning-history record is still appended whose `decision` field is
`None`. -/
theorem c10_action_error_reason (es : ReasoningEngine) (perceptions : List Val)
    (context : Val) (now : Int) (a : Nat × Rule) (rest : List (Nat × Rule)) (msg : String)
    (happ : es.applicableOf perceptions context now = a :: rest)
    (herr : (pythonMax (fun p => ruleKey es.adaptive_weights p.2) a rest).2.action
        (mkReasoningContext perceptions context now) = .error msg) :
    (es.reason perceptions context now).1 = none
    ∧ (es.reason perceptions context now).2.rules = es.rules
    ∧ ∃ rec : HistoryRecord,
        (es.reason perceptions context now).2.reasoning_history.getLast? = some rec
        ∧ rec.decision = none
        ∧ rec.rule_used
            = (pythonMax (fun p => ruleKey es.adaptive_weights p.2) a rest).2.name := by
  have hexec : (pythonMax (fun p => ruleKey es.adaptive_weights p.2) a rest).2.execute
      (mkReasoningContext perceptions context now) now
      = (none, (pythonMax (fun p => ruleKey es.adaptive_weights p.2) a rest).2) := by
    unfold Rule.execute
    rw [herr]
  have hmem : pythonMax (fun p => ruleKey es.adaptive_weights p.2) a rest
      ∈ es.applicableOf perceptions context now := by
    rw [happ]
    exact pythonMax_mem _ a rest
  have hmem2 : pythonMax (fun p => ruleKey es.adaptive_weights p.2) a rest
      ∈ es.rules.enum := (List.mem_filter.mp hmem).1
  have hget : es.rules[(pythonMax (fun p => ruleKey es.adaptive_weights p.2) a rest).1]?
      = some (pythonMax (fun p => ruleKey es.adaptive_weights p.2) a rest).2 :=
    List.mem_enum_iff_getElem?.mp hmem2
  have hset := set_of_getElem? hget
  refine ⟨?_, ?_, ?_⟩
  · unfold ReasoningEngine.reason
    simp only [happ, hexec]
  · unfold ReasoningEngine.reason
    simp only [happ, hexec]
    exact hset
  · refine ⟨⟨(pythonMax (fun p => ruleKey es.adaptive_weights p.2) a rest).2.name,
      (a :: rest).map (fun p => p.2.name), none, now⟩, ?_, rfl, rfl⟩
    unfold ReasoningEngine.reason
    simp only [happ, hexec]
    rcases le_or_lt (es.reasoning_history
        ++ [(⟨(pythonMax (fun p => ruleKey es.adaptive_weights p.2) a rest).2.name,
          (a :: rest).map (fun p => p.2.name), none, now⟩ : HistoryRecord)]).length 1000
      with hle | hgt
    · rw [if_neg (by omega)]
      exact List.getLast?_concat _
    · rw [if_pos (by omega), getLast?_lastN (by norm_num)]
      exact List.getLast?_concat _

theorem c10_action_error_reason_witness :
    ((⟨[Rule.mk "boom" (fun _ => .ok true) (fun _ => .error "fail") 1 0 none], [], []⟩
        : ReasoningEngine).applicableOf [] Val.null 0
      = [(0, Rule.mk "boom" (fun _ => .ok true) (fun _ => .error "fail") 1 0 none)]
      ∧ (pythonMax (fun p => ruleKey ([] : List (String × ℚ)) p.2)
          (0, Rule.mk "boom" (fun _ => .ok true) (fun _ => .error "fail") 1 0 none)
          []).2.action (mkReasoningContext [] Val.null 0) = .error "fail")
    ∧ (((⟨[Rule.mk "boom" (fun _ => .ok true) (fun _ => .error "fail") 1 0 none], [], []⟩
          : ReasoningEngine).reason [] Val.null 0).1 = none
      ∧ ((⟨[Rule.mk "boom" (fun _ => .ok true) (fun _ => .error "fail") 1 0 none], [], []⟩
          : ReasoningEngine).reason [] Val.null 0).2.rules
          = (⟨[Rule.mk "boom" (fun _ => .ok true) (fun _ => .error "fail") 1 0 none], [], []⟩
          : ReasoningEngine).rules
      ∧ ∃ rec : HistoryRecord,
          ((⟨[Rule.mk "boom" (fun _ => .ok true) (fun _ => .error "fail") 1 0 none], [], []⟩
            : ReasoningEngine).reason [] Val.null 0).2.reasoning_history.getLast? = some rec
          ∧ rec.decision = none
          ∧ rec.rule_used
              = (pythonMax (fun p => ruleKey ([] : List (String × ℚ)) p.2)
                  (0, Rule.mk "boom" (fun _ => .ok true) (fun _ => .error "fail") 1 0 none)
                  []).2.name) :=
  ⟨⟨rfl, rfl⟩, c10_action_error_reason
    ⟨[Rule.mk "boom" (fun _ => .ok true) (fun _ => .error "fail") 1 0 none], [], []⟩
    [] Val.null 0
    (0, Rule.mk "boom" (fun _ => .ok true) (fun _ => .error "fail") 1 0 none)
    [] "fail" rfl rfl⟩

end MambaCore
